import Mathlib

/-!
Shallow embedding of the synchronization core of the nerdbank-zcash-rust crate
(analysis.rs, sync.rs, block_source.rs, resilience.rs, send.rs, interop.rs),
together with theorems checking the natural-language specification against it.

Machine integers are modelled as `Nat` with explicit `% 2 ^ 32` where the Rust
code casts to `u32`; fallible code returns `Except`.
-/

/-! ## Balance bucketing: analysis.rs, `get_user_balances` -/

/-- ZIP-317 protocol minimum fee in zatoshis (`zip317::MINIMUM_FEE`, external constant). -/
def MINIMUM_FEE : Nat := 10000

/-- One row of the `GET_UNSPENT_NOTES` query as read in the `while` loop of
`get_user_balances`: block height (`None` when unmined), value in zatoshis,
output pool, whether the recipient key scope is internal, and the change flag. -/
structure NoteRow where
  block_height : Option Nat
  value : Nat
  output_pool : Nat
  is_internal : Bool
  is_change : Bool
deriving DecidableEq

/-- The `UserBalances` struct of analysis.rs (all fields `u64`, zero-initialised). -/
structure UserBalances where
  spendable : Nat := 0
  immature_change : Nat := 0
  minimum_fees : Nat := 0
  immature_income : Nat := 0
  dust : Nat := 0
  incoming : Nat := 0
  incoming_dust : Nat := 0
deriving DecidableEq

/-- The body of the row loop of `get_user_balances` (analysis.rs lines 136-185),
executed for one row against the running balances. -/
def processNote (marginal_fee trusted_anchor untrusted_anchor : Nat)
    (b : UserBalances) (row : NoteRow) : UserBalances :=
  let is_dust : Bool := row.value < marginal_fee
  let is_shielded : Bool := 1 < row.output_pool
  let relevant_anchor := if row.is_internal then trusted_anchor else untrusted_anchor
  let is_mature : Bool :=
    match row.block_height with
    | some height => height ≤ relevant_anchor
    | none => false
  let is_spendable : Bool := is_mature && is_shielded
  let b :=
    if !row.is_change && row.block_height.isNone then
      let b := { b with incoming := b.incoming + row.value }
      if is_dust then { b with incoming_dust := b.incoming_dust + row.value } else b
    else b
  if is_dust then
    if row.block_height.isSome then { b with dust := b.dust + row.value } else b
  else
    let b :=
      if row.is_change || is_mature then
        { b with minimum_fees := b.minimum_fees + marginal_fee }
      else b
    if is_spendable then { b with spendable := b.spendable + row.value }
    else if row.block_height.isSome then
      if row.is_change then { b with immature_change := b.immature_change + row.value }
      else { b with immature_income := b.immature_income + row.value }
    else b

/-- `get_user_balances` (analysis.rs lines 110-213): fold the row loop over the
unspent-note rows, then add the receiving-note fee unit and apply the protocol
minimum-fee floor when the fee accumulator is non-zero, then let the optional
librustzcash wallet summary override `spendable`, `immature_change` and `dust`. -/
def get_user_balances (marginal_fee trusted_anchor untrusted_anchor : Nat)
    (rows : List NoteRow) (summary : Option (Nat × Nat × Nat)) : UserBalances :=
  let b := rows.foldl (processNote marginal_fee trusted_anchor untrusted_anchor) {}
  let b :=
    if 0 < b.minimum_fees then
      let fees := b.minimum_fees + marginal_fee
      { b with minimum_fees := if fees < MINIMUM_FEE then MINIMUM_FEE else fees }
    else b
  match summary with
  | some (s, ic, d) => { b with spendable := s, immature_change := ic, dust := d }
  | none => b

/-- Concrete scenario of claim C1: a single non-change shielded note of
100,000 zatoshis, mined at height 101 above both anchors (height 100), i.e.
with too few confirmations to be mature. -/
def c1_note : NoteRow :=
  { block_height := some 101, value := 100000, output_pool := 2,
    is_internal := false, is_change := false }

/-! ## Block cache: block_source.rs -/

/-- Shielded spend/output/action counts of one compact transaction (all that the
downloader's chunking inspects of `CompactTx`). -/
structure CompactTx where
  spends : Nat
  outputs : Nat
  actions : Nat
deriving DecidableEq

/-- A compact block: its height (`u64` in the protobuf) and its transactions. -/
structure CompactBlock where
  height : Nat
  vtx : List CompactTx
deriving DecidableEq

/-- Modulus of `u32` casts. -/
def U32_MOD : Nat := 2 ^ 32

/-- `u32::MAX`. -/
def U32_MAX : Nat := 2 ^ 32 - 1

/-- The block cache's `HashMap<u32, CompactBlock>`, as a map from height keys. -/
def BlockCache : Type := Nat → Option CompactBlock

/-- `BlockCache::new()`. -/
def BlockCache.emptyCache : BlockCache := fun _ => none

/-- `BlockCache::insert`: keyed by `block.height as u32` (a truncating cast). -/
def BlockCache.insert (c : BlockCache) (b : CompactBlock) : BlockCache :=
  fun k => if k = b.height % U32_MOD then some b else c k

/-- `BlockCache::insert_range`: insert each block of the vector in order. -/
def BlockCache.insert_range (c : BlockCache) (blocks : List CompactBlock) : BlockCache :=
  blocks.foldl BlockCache.insert c

/-- `BlockCache::remove` (restricted to its effect on the map). -/
def BlockCache.removeHeight (c : BlockCache) (height : Nat) : BlockCache :=
  fun k => if k = height then none else c k

/-- `BlockCache::remove_range`: remove every height of the half-open interval
`start..stop` in ascending order. -/
def BlockCache.remove_range (c : BlockCache) (start stop : Nat) : BlockCache :=
  (List.range' start (stop - start)).foldl BlockCache.removeHeight c

/-- `BlockCache::truncate_to_height`: `retain(|k, _| k <= limit)`. -/
def BlockCache.truncate_to_height (c : BlockCache) (block_height : Nat) : BlockCache :=
  fun k => if k ≤ block_height then c k else none

/-- The `while head < max_exclusive` loop of `BlockCache::with_blocks`, with the
iteration count `n = max_exclusive - head` made structural; returns the blocks
visited in ascending height order, or the first height missing from the cache
(the payload of `BlockCacheError::BlockNotFound`). -/
def BlockCache.with_blocks_go (c : BlockCache) : Nat → Nat → Except Nat (List CompactBlock)
  | _, 0 => .ok []
  | head, n + 1 =>
    match c head with
    | none => .error head
    | some b => (BlockCache.with_blocks_go c (head + 1) n).map (b :: ·)

/-- `BlockCache::with_blocks` (block_source.rs lines 64-94): `head` defaults to 0,
the limit defaults to `u32::MAX` and is cast `as u32` (truncating), and
`max_exclusive` is `head.saturating_add(limit)`. -/
def BlockCache.with_blocks (c : BlockCache) (from_height : Option Nat) (limit : Option Nat) :
    Except Nat (List CompactBlock) :=
  let head := from_height.getD 0
  let max_exclusive := min (head + (limit.getD U32_MAX) % U32_MOD) U32_MAX
  BlockCache.with_blocks_go c head (max_exclusive - head)

/-! ## Reorg handling: sync.rs, `scan_blocks` -/

/-- Outcome of `scan_cached_blocks` as far as `scan_blocks` distinguishes it: a
continuity error carrying `err.at_height()`, or any other error. -/
inductive ScanError where
  | continuity (at_height : Nat)
  | other
deriving DecidableEq

/-- The parts of `Db` that `scan_blocks` mutates: the wallet store (modelled by
the argument of its most recent `truncate_to_height` call, per the Wallet Store
contract) and the block cache. -/
structure DbState where
  dataTruncatedTo : Option Nat
  blocks : BlockCache

/-- `scan_blocks` (sync.rs lines 866-921). The result of `scan_cached_blocks`
and the priority comparison made on the freshly suggested ranges in the `Ok`
branch are inputs of the model; the continuity branch computes
`rewind_height = at_height.saturating_sub(10)`, truncates the wallet store to
it, truncates the block cache to it and reports `true` (priorities changed). -/
def scan_blocks (db : DbState) (scan_result : Except ScanError Unit)
    (latest_first_priority : Option Nat) (range_priority : Nat) :
    Except ScanError (DbState × Bool) :=
  match scan_result with
  | .ok _ =>
    .ok (db, match latest_first_priority with
      | some p => range_priority < p
      | none => false)
  | .error (.continuity e) =>
    let rewind_height := e - 10
    .ok ({ dataTruncatedTo := some rewind_height,
           blocks := db.blocks.truncate_to_height rewind_height }, true)
  | .error .other => .error .other

/-! ## Downloader chunking: sync.rs, `download_blocks` -/

/-- Number of sapling spends+outputs and orchard actions in memory at a time. -/
def BLOCK_ACTIONS_MEMORY_LIMIT : Nat := 500000

/-- Capacity of the chunk channel. -/
def CHUNK_CHANNEL_CAPACITY : Nat := 10

/-- Approximate number of actions per chunk submitted to the channel. -/
def BLOCKS_CHUNK_THRESHOLD : Nat := BLOCK_ACTIONS_MEMORY_LIMIT / CHUNK_CHANNEL_CAPACITY

/-- Contribution of one block to `accumulated_size`:
`block.vtx.iter().fold(0, |acc, tx| acc + tx.actions.len() + tx.outputs.len() + tx.spends.len())`. -/
def blockActionCount (b : CompactBlock) : Nat :=
  b.vtx.foldl (fun acc tx => acc + tx.actions + tx.outputs + tx.spends) 0

/-- The block loop of `download_blocks` (sync.rs lines 792-860) without
cancellation: push each streamed block onto the current chunk, emit the chunk
once `accumulated_size` exceeds `BLOCKS_CHUNK_THRESHOLD`, and flush the final
non-empty chunk after the stream ends. -/
def download_chunks_go : List CompactBlock → List CompactBlock → Nat → List (List CompactBlock)
  | [], chunk, _ => if chunk.isEmpty then [] else [chunk]
  | b :: rest, chunk, accumulated_size =>
    let accumulated_size := accumulated_size + blockActionCount b
    let chunk := chunk ++ [b]
    if BLOCKS_CHUNK_THRESHOLD < accumulated_size then
      chunk :: download_chunks_go rest [] 0
    else
      download_chunks_go rest chunk accumulated_size

/-- Chunking performed by `download_blocks` on the streamed block list. -/
def download_chunks (blocks : List CompactBlock) : List (List CompactBlock) :=
  download_chunks_go blocks [] 0

/-! ## Resilience wrapper: resilience.rs -/

/-- `ATTEMPT_LIMIT` (resilience.rs line 9). -/
def ATTEMPT_LIMIT : Nat := 3

/-- A `tonic::Status`: numeric gRPC code plus message. -/
structure RpcStatus where
  code : Nat
  message : String
deriving DecidableEq

/-- Numeric value of `tonic::Code::Cancelled`. -/
def CODE_CANCELLED : Nat := 1

/-- `Status::cancelled(msg)`. -/
def RpcStatus.cancelledStatus (msg : String) : RpcStatus := ⟨CODE_CANCELLED, msg⟩

/-- The retry loop of `webrequest_with_retry` (resilience.rs lines 46-83).

In iteration `k` the variable `failure_count` equals `k` (it is incremented on
every path that loops). The delegate's outcome for attempt `k` is `delegate k`;
`cancel_during_call k` tells whether the cancellation token wins the `select!`
against the in-flight attempt `k`, and `cancel_during_sleep k` whether it wins
the `select!` against the backoff sleep following failed attempt `k`. Returns
the surfaced result together with the number of completed delegate invocations.
The loop returns within `ATTEMPT_LIMIT + 1` iterations, so the fuel sentinel at
`0` is unreachable from the entry point. -/
def webrequest_with_retry_go {α : Type} (delegate : Nat → Except RpcStatus α)
    (cancel_during_call cancel_during_sleep : Nat → Bool) :
    Nat → Nat → Except RpcStatus α × Nat
  | _, 0 => (.error (RpcStatus.cancelledStatus "fuel exhausted"), 0)
  | k, fuel + 1 =>
    if cancel_during_call k then
      (.error (RpcStatus.cancelledStatus "Request cancelled"), 0)
    else
      match delegate k with
      | .ok v => (.ok v, 1)
      | .error status =>
        if status.code = CODE_CANCELLED then
          (.error (RpcStatus.cancelledStatus status.message), 1)
        else if k = ATTEMPT_LIMIT then
          (.error status, 1)
        else if cancel_during_sleep k then
          (.error (RpcStatus.cancelledStatus "Request cancelled"), 1)
        else
          let r := webrequest_with_retry_go delegate cancel_during_call cancel_during_sleep
            (k + 1) fuel
          (r.1, r.2 + 1)

/-- `webrequest_with_retry`, entered with `failure_count = 0`. -/
def webrequest_with_retry {α : Type} (delegate : Nat → Except RpcStatus α)
    (cancel_during_call cancel_during_sleep : Nat → Bool) : Except RpcStatus α × Nat :=
  webrequest_with_retry_go delegate cancel_during_call cancel_during_sleep 0 (ATTEMPT_LIMIT + 1)

/-! ## Transparent address discovery: sync.rs, `fill_in_taddrs_to_gap_limit` -/

/-- `TADDR_INDEX_GAP_LIMIT` (sync.rs line 60). -/
def TADDR_INDEX_GAP_LIMIT : Nat := 20

/-- Per-account view of the `taddrs_by_account` map: for each diversifier index,
`none` when no address exists there, `some used` when one does. -/
def TaddrState : Type := Nat → Option Bool

/-- Effect of `put_address_with_diversifier_index` + pushing the fresh
`TransparentAddressSyncInfo` (used = false) at a missing index. The model
assumes the derived unified address always carries a transparent receiver. -/
def TaddrState.addUnused (s : TaddrState) (i : Nat) : TaddrState :=
  fun j => if j = i then some false else s j

/-- The `while consecutive_unused_addresses < TADDR_INDEX_GAP_LIMIT` loop of
`fill_in_taddrs_to_gap_limit` (sync.rs lines 401-459) for one account, with
explicit fuel; returns the filled-in state and the index at which the loop
stopped. The loop terminates on every input with bounded addresses, so with
sufficient fuel the `none` sentinel is unreachable. -/
def fill_gap_go : Nat → TaddrState → Nat → Nat → Option (TaddrState × Nat)
  | 0, _, _, _ => none
  | fuel + 1, s, index, consecutive_unused =>
    if TADDR_INDEX_GAP_LIMIT ≤ consecutive_unused then some (s, index)
    else
      match s index with
      | none => fill_gap_go fuel (s.addUnused index) (index + 1) (consecutive_unused + 1)
      | some true => fill_gap_go fuel s (index + 1) 0
      | some false => fill_gap_go fuel s (index + 1) (consecutive_unused + 1)

/-- One call of `fill_in_taddrs_to_gap_limit` for one account: run the loop from
index 0 with zero consecutive unused addresses. -/
def fill_in_taddrs (fuel : Nat) (s : TaddrState) : Option (TaddrState × Nat) :=
  fill_gap_go fuel s 0 0

/-! ## Transaction submission: send.rs, `transmit_transaction` -/

/-- The `SendResponse` message of the lightwalletd service: application error
code (`i32`) and message. -/
structure SendResponse where
  error_code : Int
  error_message : String
deriving DecidableEq

/-- Errors `transmit_transaction` can surface: the internal
"Transaction not found" error, a transport-layer `tonic::Status`, or
`Error::SendFailed { code, reason }`. -/
inductive SendError where
  | internalMissing
  | transport (status : RpcStatus)
  | sendFailed (code : Int) (reason : String)
deriving DecidableEq

/-- `transmit_transaction` (send.rs lines 136-159), with the database lookup
and the single `send_transaction` RPC outcome as inputs. Returns the surfaced
result paired with the number of `send_transaction` invocations made. -/
def transmit_transaction (tx_found : Bool)
    (rpc : Except RpcStatus SendResponse) : Except SendError Unit × Nat :=
  if !tx_found then (.error .internalMissing, 0)
  else
    match rpc with
    | .error status => (.error (.transport status), 1)
    | .ok response =>
      if response.error_code ≠ 0 then
        (.error (.sendFailed response.error_code response.error_message), 1)
      else (.ok (), 1)

/-! ## Cancellation registry: interop.rs, `cancel` -/

/-- The interop error type, as far as `cancel` is concerned. -/
inductive LightWalletError where
  | canceled
  | otherError (message : String)
deriving DecidableEq

/-- State of the `CANCELLATION_TOKENS` registry: the id-to-token map, plus the
cancelled flag of every `CancellationToken` ever created (tokens are shared
with their operations, so firing survives removal from the map). -/
structure CancelRegistry where
  tokens : Nat → Option Nat
  fired : Nat → Bool

/-- `cancel` (interop.rs lines 241-248): remove the id from the registry and, if
it was present, fire the token it mapped to; always return `Ok(())`. -/
def cancel (s : CancelRegistry) (id : Nat) : CancelRegistry × Except LightWalletError Unit :=
  match s.tokens id with
  | some t =>
    ({ tokens := fun j => if j = id then none else s.tokens j,
       fired := fun u => if u = t then true else s.fired u }, .ok ())
  | none => (s, .ok ())

/-! ## Concrete instances used by counterexamples and witnesses -/

/-- A delegate that fails every attempt with a retryable transport error. -/
def c4_delegate : Nat → Except RpcStatus Unit := fun _ => .error ⟨2, "unavailable"⟩

/-- Cancellation registry holding one token (handle 3) registered under id 7. -/
def c10_registry : CancelRegistry :=
  { tokens := fun j => if j = 7 then some 3 else none, fired := fun _ => false }

/-- 10,001 consecutive empty compact blocks at heights 0..10,000. -/
def c3_blocks : List CompactBlock := (List.range 10001).map (fun h => ⟨h, []⟩)

/-- Block cache holding a single block at height 5. -/
def c8_cache : BlockCache := fun k => if k = 5 then some ⟨5, []⟩ else none

/-- Two distinct blocks at heights 5 and 6, for the C9 witness. -/
def c9_blocks : List CompactBlock := [⟨5, []⟩, ⟨6, [⟨1, 0, 0⟩]⟩]

/-- Account state for the C6 counterexample: the address at index 0 is used,
an unused address already exists at index 21, and no other index is taken. -/
def c6_state : TaddrState :=
  fun j => if j = 0 then some true else if j = 21 then some false else none

/-- Account state for the C6 witness: a single used address at index 0. -/
def c6w_state : TaddrState := fun j => if j = 0 then some true else none

/-! ## Theorems -/

/-- C2: if note-scanning reports a continuity error at height `E`, `scan_blocks`
truncates the wallet store to `max(0, E - 10)` (the `Int` subtraction clamped to
zero, matching `saturating_sub`), leaves no cached block above that height, and
reports that priorities changed (`Ok(true)`) instead of surfacing the error. -/
theorem c2_continuity_error_rewind (db : DbState) (e : Nat)
    (latest_first_priority : Option Nat) (range_priority : Nat) :
    scan_blocks db (.error (.continuity e)) latest_first_priority range_priority =
      .ok ({ dataTruncatedTo := some (((e : Int) - 10).toNat),
             blocks := db.blocks.truncate_to_height (((e : Int) - 10).toNat) }, true) ∧
    ∀ h : Nat, ((e : Int) - 10).toNat < h →
      (db.blocks.truncate_to_height (((e : Int) - 10).toNat)) h = none := by
  have ht : ((e : Int) - 10).toNat = e - 10 := by omega
  constructor
  · simp only [scan_blocks, ht]
  · intro h hh
    rw [ht] at hh
    simp only [BlockCache.truncate_to_height]
    rw [if_neg (by omega)]

/-- C7: a response carrying a non-zero application `error_code` makes
`transmit_transaction` fail with `Error::SendFailed` carrying exactly that code
and the node's message verbatim, after a single `send_transaction` invocation;
moreover no path of `transmit_transaction` ever invokes the RPC more than once,
so a submission is never retried (in particular not on account of an
application-level error response). -/
theorem c7_submission_error_verbatim (response : SendResponse)
    (hcode : response.error_code ≠ 0) :
    transmit_transaction true (.ok response) =
      (.error (.sendFailed response.error_code response.error_message), 1) ∧
    ∀ rpc : Except RpcStatus SendResponse, (transmit_transaction true rpc).2 ≤ 1 := by
  constructor
  · simp [transmit_transaction, hcode]
  · intro rpc
    rcases rpc with s | r
    · simp [transmit_transaction]
    · by_cases h : r.error_code = 0 <;> simp [transmit_transaction, h]

/-- Witness for C7 at a concrete rejected submission. -/
theorem c7_submission_error_verbatim_witness :
    ((⟨5, "tx rejected⟩"⟩ : SendResponse).error_code ≠ 0) ∧
    (transmit_transaction true (.ok (⟨5, "tx rejected⟩"⟩ : SendResponse)) =
      (.error (.sendFailed 5 "tx rejected⟩"), 1) ∧
     ∀ rpc : Except RpcStatus SendResponse, (transmit_transaction true rpc).2 ≤ 1) :=
  ⟨by decide, c7_submission_error_verbatim ⟨5, "tx rejected⟩"⟩ (by decide)⟩

/-- C10: `cancel(id)` always returns `Ok`: when the id is registered it fires
that operation's token and removes the id, so that a second `cancel(id)` is a
no-op that still returns `Ok`; when the id is unknown the registry is unchanged
and the call still returns `Ok`. -/
theorem c10_cancel_always_ok (s : CancelRegistry) (id : Nat) :
    (cancel s id).2 = .ok () ∧
    (∀ t, s.tokens id = some t →
      (cancel s id).1.fired t = true ∧
      (cancel s id).1.tokens id = none ∧
      cancel (cancel s id).1 id = ((cancel s id).1, .ok ())) ∧
    (s.tokens id = none → (cancel s id).1 = s) := by
  rcases h : s.tokens id with _ | t
  · refine ⟨by simp [cancel, h], ?_, fun _ => by simp [cancel, h]⟩
    intro t ht
    exact Option.noConfusion ht
  · refine ⟨by simp [cancel, h], ?_, ?_⟩
    · intro t' ht'
      injection ht' with he
      subst he
      have hid : (cancel s id).1.tokens id = none := by simp [cancel, h]
      refine ⟨by simp [cancel, h], hid, ?_⟩
      generalize hX : (cancel s id).1 = X at hid ⊢
      simp [cancel, hid]
    · intro hnone
      exact Option.noConfusion hnone

/-- Witness for C10 at a concrete registry and id. -/
theorem c10_cancel_always_ok_witness :
    (cancel c10_registry 7).2 = .ok () ∧
    (∀ t, c10_registry.tokens 7 = some t →
      (cancel c10_registry 7).1.fired t = true ∧
      (cancel c10_registry 7).1.tokens 7 = none ∧
      cancel (cancel c10_registry 7).1 7 = ((cancel c10_registry 7).1, .ok ())) ∧
    (c10_registry.tokens 7 = none → (cancel c10_registry 7).1 = c10_registry) :=
  c10_cancel_always_ok c10_registry 7

/-- C4: a delegate failing every attempt with a retryable (non-cancelled)
transport error is invoked exactly `ATTEMPT_LIMIT + 1 = 4` times, and the error
produced by the last attempt is returned unchanged. -/
theorem c4_retry_exhaustion {α : Type} (delegate : Nat → Except RpcStatus α)
    (hfail : ∀ k, k ≤ ATTEMPT_LIMIT →
      ∃ s, delegate k = .error s ∧ s.code ≠ CODE_CANCELLED) :
    (webrequest_with_retry delegate (fun _ => false) (fun _ => false)).1 =
      delegate ATTEMPT_LIMIT ∧
    (webrequest_with_retry delegate (fun _ => false) (fun _ => false)).2 =
      ATTEMPT_LIMIT + 1 := by
  obtain ⟨s0, h0, c0⟩ := hfail 0 (by simp [ATTEMPT_LIMIT])
  obtain ⟨s1, h1, c1⟩ := hfail 1 (by simp [ATTEMPT_LIMIT])
  obtain ⟨s2, h2, c2⟩ := hfail 2 (by simp [ATTEMPT_LIMIT])
  obtain ⟨s3, h3, c3⟩ := hfail 3 (by simp [ATTEMPT_LIMIT])
  have hrun : webrequest_with_retry delegate (fun _ => false) (fun _ => false) =
      (.error s3, 4) := by
    simp [webrequest_with_retry, ATTEMPT_LIMIT, webrequest_with_retry_go,
      h0, h1, h2, h3, c0, c1, c2, c3]
  rw [hrun]
  exact ⟨h3.symm, rfl⟩

/-- Witness for C4: the concrete always-failing delegate is called 4 times and
its status surfaces unchanged. -/
theorem c4_retry_exhaustion_witness :
    (∀ k, k ≤ ATTEMPT_LIMIT →
      ∃ s, c4_delegate k = .error s ∧ s.code ≠ CODE_CANCELLED) ∧
    ((webrequest_with_retry c4_delegate (fun _ => false) (fun _ => false)).1 =
      c4_delegate ATTEMPT_LIMIT ∧
     (webrequest_with_retry c4_delegate (fun _ => false) (fun _ => false)).2 =
      ATTEMPT_LIMIT + 1) :=
  ⟨fun _ _ => ⟨⟨2, "unavailable"⟩, rfl, by decide⟩,
   c4_retry_exhaustion c4_delegate (fun _ _ => ⟨⟨2, "unavailable"⟩, rfl, by decide⟩)⟩

/-- Helper for C5: from any loop entry `k ≤ j`, if attempts `k..j` fail with
retryable errors and the token fires during the backoff sleep after attempt `j`
(and not during an earlier one), the loop returns the Canceled status having
completed exactly attempts `k..j`. -/
theorem retry_go_cancel_during_sleep {α : Type} (delegate : Nat → Except RpcStatus α)
    (cs : Nat → Bool) :
    ∀ fuel k j, k + fuel = ATTEMPT_LIMIT + 1 → k ≤ j → j < ATTEMPT_LIMIT →
      (∀ m, k ≤ m → m ≤ j → ∃ s, delegate m = .error s ∧ s.code ≠ CODE_CANCELLED) →
      cs j = true → (∀ m, k ≤ m → m < j → cs m = false) →
      webrequest_with_retry_go delegate (fun _ => false) cs k fuel =
        (.error (RpcStatus.cancelledStatus "Request cancelled"), j + 1 - k) := by
  intro fuel
  induction fuel with
  | zero =>
    intro k j hk hkj hj _ _ _
    simp [ATTEMPT_LIMIT] at hk hj
    omega
  | succ fuel ih =>
    intro k j hk hkj hj hfail hcs hcs'
    obtain ⟨s, hs, hsc⟩ := hfail k le_rfl hkj
    rcases eq_or_lt_of_le hkj with rfl | hlt
    · rw [show k + 1 - k = 1 by omega]
      simp [webrequest_with_retry_go, hs, hsc, hcs, Nat.ne_of_lt hj]
    · have hcsk : cs k = false := hcs' k le_rfl hlt
      have hknot : k ≠ ATTEMPT_LIMIT := by
        simp only [ATTEMPT_LIMIT] at hj ⊢
        omega
      have hrec := ih (k + 1) j (by omega) (by omega) hj
        (fun m hm hm' => hfail m (by omega) hm') hcs
        (fun m hm hm' => hcs' m (by omega) hm')
      simp only [webrequest_with_retry_go, Bool.false_eq_true, if_false, hs,
        if_neg hsc, if_neg hknot, hcsk, hrec]
      simp only [Prod.mk.injEq]
      exact ⟨trivial, by omega⟩

/-- C5: if the cancellation token fires during the backoff sleep that follows
failed attempt `j` (all attempts so far having failed with retryable errors and
no earlier cancellation), the wrapper returns the Canceled status produced by
the sleep-racing `select!`, without completing the sleep's retry: exactly
`j + 1` delegate invocations are made and attempt `j + 1` never runs. -/
theorem c5_cancel_during_backoff {α : Type} (delegate : Nat → Except RpcStatus α)
    (cs : Nat → Bool) (j : Nat) (hj : j < ATTEMPT_LIMIT)
    (hfail : ∀ m, m ≤ j → ∃ s, delegate m = .error s ∧ s.code ≠ CODE_CANCELLED)
    (hcs : cs j = true) (hcs' : ∀ m, m < j → cs m = false) :
    webrequest_with_retry delegate (fun _ => false) cs =
      (.error (RpcStatus.cancelledStatus "Request cancelled"), j + 1) := by
  have := retry_go_cancel_during_sleep delegate cs (ATTEMPT_LIMIT + 1) 0 j rfl
    (Nat.zero_le _) hj (fun m _ hm => hfail m hm) hcs (fun m _ hm => hcs' m hm)
  simpa using this

/-- Witness for C5: cancellation during the sleep after the second failed
attempt returns Canceled with exactly two completed attempts. -/
theorem c5_cancel_during_backoff_witness :
    (1 < ATTEMPT_LIMIT ∧
     (∀ m, m ≤ 1 → ∃ s, c4_delegate m = .error s ∧ s.code ≠ CODE_CANCELLED) ∧
     (fun k => decide (k = 1)) 1 = true ∧
     (∀ m, m < 1 → (fun k => decide (k = 1)) m = false)) ∧
    webrequest_with_retry c4_delegate (fun _ => false) (fun k => decide (k = 1)) =
      (.error (RpcStatus.cancelledStatus "Request cancelled"), 1 + 1) :=
  ⟨⟨by decide, fun _ _ => ⟨⟨2, "unavailable"⟩, rfl, by decide⟩, by decide, by decide⟩,
   c5_cancel_during_backoff c4_delegate (fun k => decide (k = 1)) 1 (by decide)
     (fun _ _ => ⟨⟨2, "unavailable"⟩, rfl, by decide⟩) (by decide) (by decide)⟩

/-- C1 counterexample: on the concrete claim scenario the note is indeed
bucketed as `immature_income`, but `minimum_fees` is `0`, not
`5000 + 5000`: the fee accumulator in `get_user_balances` only counts notes
that are change or mature, and the receiving-note unit is added only when
that accumulator is non-zero. -/
theorem c1_claimed_fee_counterexample :
    ¬((get_user_balances 5000 100 100 [c1_note] none).immature_income = 100000 ∧
      (get_user_balances 5000 100 100 [c1_note] none).minimum_fees = 5000 + 5000) := by
  decide

/-- C1 (amended): for every marginal fee and anchors, a wallet whose unspent-note
snapshot is a single non-change, non-internal, shielded, non-dust note mined
above the relevant (untrusted) anchor has that note's value classified into
`immature_income`, and `minimum_fees` equals `0` (only mature-or-change notes
accrue fee units; the receiving-note unit and the protocol floor apply only when
the accumulator is positive). -/
theorem c1_single_immature_note_balances
    (marginal_fee trusted_anchor untrusted_anchor v h : Nat)
    (hdust : marginal_fee ≤ v) (himm : untrusted_anchor < h) :
    (get_user_balances marginal_fee trusted_anchor untrusted_anchor
      [{ block_height := some h, value := v, output_pool := 2,
         is_internal := false, is_change := false }] none).immature_income = v ∧
    (get_user_balances marginal_fee trusted_anchor untrusted_anchor
      [{ block_height := some h, value := v, output_pool := 2,
         is_internal := false, is_change := false }] none).minimum_fees = 0 := by
  simp only [get_user_balances, processNote, List.foldl]
  simp [Nat.not_lt.mpr hdust, Nat.not_le.mpr himm]

/-- Witness for C1 (amended) at the concrete spec scenario. -/
theorem c1_single_immature_note_balances_witness :
    (5000 ≤ 100000 ∧ 100 < 101) ∧
    ((get_user_balances 5000 100 100
      [{ block_height := some 101, value := 100000, output_pool := 2,
         is_internal := false, is_change := false }] none).immature_income = 100000 ∧
     (get_user_balances 5000 100 100
      [{ block_height := some 101, value := 100000, output_pool := 2,
         is_internal := false, is_change := false }] none).minimum_fees = 0) :=
  ⟨by decide,
   c1_single_immature_note_balances 5000 100 100 100000 101 (by decide) (by decide)⟩

/-- Helper: `insert_range (x :: rest)` first inserts `x`, then the rest. -/
theorem insert_range_cons (c : BlockCache) (x : CompactBlock) (rest : List CompactBlock) :
    c.insert_range (x :: rest) = (c.insert x).insert_range rest := rfl

/-- Helper: a key held by no block of the list passes through `insert_range`. -/
theorem insert_range_lookup_of_not_mem :
    ∀ (blocks : List CompactBlock) (c : BlockCache) (k : Nat),
      (∀ b ∈ blocks, b.height % U32_MOD ≠ k) → (c.insert_range blocks) k = c k := by
  intro blocks
  induction blocks with
  | nil => intro c k _; rfl
  | cons x rest ih =>
    intro c k hk
    rw [insert_range_cons, ih _ _ (fun b hb => hk b (List.mem_cons_of_mem x hb))]
    simp only [BlockCache.insert]
    rw [if_neg (fun he => (hk x (List.mem_cons_self x rest)) he.symm)]

/-- Helper for C9: with pairwise-distinct in-range heights, looking up any
inserted block's height after `insert_range` returns that very block. -/
theorem insert_range_lookup :
    ∀ (blocks : List CompactBlock) (c : BlockCache),
      (blocks.map CompactBlock.height).Nodup → (∀ b ∈ blocks, b.height < U32_MOD) →
      ∀ b ∈ blocks, (c.insert_range blocks) b.height = some b := by
  intro blocks
  induction blocks with
  | nil => intro c _ _ b hb; cases hb
  | cons x rest ih =>
    intro c hnd hlt b hb
    have hnd' : (∀ r ∈ rest, ¬r.height = x.height) ∧
        (rest.map CompactBlock.height).Nodup := by simpa using hnd
    rw [insert_range_cons]
    rcases List.mem_cons.mp hb with rfl | hbr
    · have hxk : b.height % U32_MOD = b.height :=
        Nat.mod_eq_of_lt (hlt b (List.mem_cons_self b rest))
      have hnotin : ∀ r ∈ rest, r.height % U32_MOD ≠ b.height := by
        intro r hr
        rw [Nat.mod_eq_of_lt (hlt r (List.mem_cons_of_mem _ hr))]
        exact hnd'.1 r hr
      rw [insert_range_lookup_of_not_mem rest _ _ hnotin]
      simp [BlockCache.insert, hxk]
    · exact ih (c.insert x) hnd'.2
        (fun r hr => hlt r (List.mem_cons_of_mem _ hr)) b hbr

/-- Helper: pointwise effect of folding `removeHeight` over `range' start n`. -/
theorem remove_fold_lookup :
    ∀ (n start : Nat) (c : BlockCache) (k : Nat),
      ((List.range' start n).foldl BlockCache.removeHeight c) k =
        if start ≤ k ∧ k < start + n then none else c k := by
  intro n
  induction n with
  | zero =>
    intro start c k
    rw [if_neg (by omega)]
    rfl
  | succ n ih =>
    intro start c k
    rw [List.range'_succ]
    simp only [List.foldl_cons]
    rw [ih (start + 1) (c.removeHeight start) k]
    by_cases h1 : start + 1 ≤ k ∧ k < start + 1 + n
    · rw [if_pos h1, if_pos (by omega)]
    · rw [if_neg h1]
      simp only [BlockCache.removeHeight]
      by_cases h2 : k = start
      · rw [if_pos h2, if_pos (by omega)]
      · rw [if_neg h2, if_neg (by omega)]

/-- Helper for C9: `remove_range` clears exactly its half-open interval. -/
theorem remove_range_lookup (c : BlockCache) (start stop k : Nat) :
    (c.remove_range start stop) k = if start ≤ k ∧ k < stop then none else c k := by
  rw [BlockCache.remove_range, remove_fold_lookup]
  by_cases h : start ≤ k ∧ k < start + (stop - start)
  · rw [if_pos h, if_pos (by omega)]
  · rw [if_neg h, if_neg (by omega)]

/-- C9: on the block cache, `insert_range` followed by lookup of any inserted
height returns the identical block (heights pairwise distinct and in `u32`
range); `remove_range` removes exactly the heights of its half-open interval
and no others; and `truncate_to_height h` keeps every entry at height at most
`h` and leaves none above `h`. -/
theorem c9_cache_operations (c : BlockCache) (blocks : List CompactBlock)
    (start stop h : Nat)
    (hnd : (blocks.map CompactBlock.height).Nodup)
    (hlt : ∀ b ∈ blocks, b.height < U32_MOD) :
    (∀ b ∈ blocks, (c.insert_range blocks) b.height = some b) ∧
    (∀ k, (c.remove_range start stop) k =
      if start ≤ k ∧ k < stop then none else c k) ∧
    (∀ k, k ≤ h → (c.truncate_to_height h) k = c k) ∧
    (∀ k, h < k → (c.truncate_to_height h) k = none) := by
  refine ⟨insert_range_lookup blocks c hnd hlt,
    fun k => remove_range_lookup c start stop k, fun k hk => ?_, fun k hk => ?_⟩
  · simp only [BlockCache.truncate_to_height]
    rw [if_pos hk]
  · simp only [BlockCache.truncate_to_height]
    rw [if_neg (by omega)]

/-- Witness for C9 at a two-block cache state. -/
theorem c9_cache_operations_witness :
    ((c9_blocks.map CompactBlock.height).Nodup ∧
     (∀ b ∈ c9_blocks, b.height < U32_MOD)) ∧
    ((∀ b ∈ c9_blocks,
        (BlockCache.emptyCache.insert_range c9_blocks) b.height = some b) ∧
     (∀ k, (BlockCache.emptyCache.remove_range 2 4) k =
        if 2 ≤ k ∧ k < 4 then none else BlockCache.emptyCache k) ∧
     (∀ k, k ≤ 5 → (BlockCache.emptyCache.truncate_to_height 5) k =
        BlockCache.emptyCache k) ∧
     (∀ k, 5 < k → (BlockCache.emptyCache.truncate_to_height 5) k = none)) :=
  ⟨⟨by decide, by decide⟩,
   c9_cache_operations BlockCache.emptyCache c9_blocks 2 4 5 (by decide) (by decide)⟩

/-- Helper: the lookup loop succeeds (with some block list) exactly when every
height of the requested extent is present in the cache. -/
theorem with_blocks_go_ok_iff (c : BlockCache) :
    ∀ (n head : Nat),
      (∃ bs, c.with_blocks_go head n = .ok bs) ↔
        ∀ i, i < n → (c (head + i)).isSome = true := by
  intro n
  induction n with
  | zero =>
    intro head
    exact ⟨fun _ i hi => absurd hi (Nat.not_lt_zero i), fun _ => ⟨[], rfl⟩⟩
  | succ n ih =>
    intro head
    cases hc : c head with
    | none =>
      constructor
      · rintro ⟨bs, hbs⟩
        simp [BlockCache.with_blocks_go, hc] at hbs
      · intro hall
        have h0 := hall 0 (Nat.succ_pos n)
        rw [Nat.add_zero, hc] at h0
        simp at h0
    | some b =>
      have hgo : c.with_blocks_go head (n + 1) =
          (c.with_blocks_go (head + 1) n).map (b :: ·) := by
        simp [BlockCache.with_blocks_go, hc]
      constructor
      · rintro ⟨bs, hbs⟩ i hi
        rw [hgo] at hbs
        match i with
        | 0 => rw [Nat.add_zero, hc]; rfl
        | i + 1 =>
          rcases hrec : c.with_blocks_go (head + 1) n with e | bs'
          · rw [hrec] at hbs
            simp [Except.map] at hbs
          · have := (ih (head + 1)).mp ⟨bs', hrec⟩ i (Nat.lt_of_succ_lt_succ hi)
            rw [show head + (i + 1) = head + 1 + i by omega]
            exact this
      · intro hall
        obtain ⟨bs', hbs'⟩ := (ih (head + 1)).mpr (fun i hi => by
          rw [show head + 1 + i = head + (i + 1) by omega]
          exact hall (i + 1) (Nat.succ_lt_succ hi))
        exact ⟨b :: bs', by rw [hgo, hbs']; rfl⟩

/-- Helper: when the lookup loop fails with height `h`, that height is absent,
lies inside the requested extent, and every earlier requested height is
present (so `h` is the first absent height and was reached in ascending
order). -/
theorem with_blocks_go_error (c : BlockCache) :
    ∀ (n head h : Nat), c.with_blocks_go head n = .error h →
      c h = none ∧ head ≤ h ∧ h < head + n ∧
      ∀ k, head ≤ k → k < h → (c k).isSome = true := by
  intro n
  induction n with
  | zero =>
    intro head h hh
    simp [BlockCache.with_blocks_go] at hh
  | succ n ih =>
    intro head h hh
    cases hc : c head with
    | none =>
      have heq : head = h := by
        simp [BlockCache.with_blocks_go, hc] at hh
        exact hh
      subst heq
      exact ⟨hc, le_rfl, by omega, fun k hk1 hk2 => absurd hk2 (by omega)⟩
    | some b =>
      have hrec : c.with_blocks_go (head + 1) n = .error h := by
        simp only [BlockCache.with_blocks_go] at hh
        rw [hc] at hh
        rcases hr : c.with_blocks_go (head + 1) n with e | bs
        · rw [hr] at hh
          simp only [Except.map, Except.error.injEq] at hh
          rw [hh]
        · rw [hr] at hh
          simp [Except.map] at hh
      obtain ⟨h1, h2, h3, h4⟩ := ih (head + 1) h hrec
      refine ⟨h1, by omega, by omega, fun k hk1 hk2 => ?_⟩
      rcases Nat.eq_or_lt_of_le hk1 with rfl | hlt
      · rw [hc]; rfl
      · exact h4 k (by omega) hk2


/-- Helper: a successful lookup returns exactly one block per requested height,
in ascending height order (`bs[i]?` is the cache entry at `head + i`). -/
theorem with_blocks_go_get (c : BlockCache) :
    ∀ (n head : Nat) (bs : List CompactBlock), c.with_blocks_go head n = .ok bs →
      bs.length = n ∧ ∀ i, i < n → bs[i]? = c (head + i) := by
  intro n
  induction n with
  | zero =>
    intro head bs hbs
    have hb : bs = [] := by
      simp only [BlockCache.with_blocks_go, Except.ok.injEq] at hbs
      exact hbs.symm
    subst hb
    exact ⟨rfl, fun i hi => absurd hi (Nat.not_lt_zero i)⟩
  | succ n ih =>
    intro head bs hbs
    cases hc : c head with
    | none =>
      simp only [BlockCache.with_blocks_go] at hbs
      rw [hc] at hbs
      simp at hbs
    | some b =>
      simp only [BlockCache.with_blocks_go] at hbs
      rw [hc] at hbs
      rcases hrec : c.with_blocks_go (head + 1) n with e | bs'
      · rw [hrec] at hbs
        simp [Except.map] at hbs
      · rw [hrec] at hbs
        simp only [Except.map, Except.ok.injEq] at hbs
        subst hbs
        obtain ⟨hlen, hget⟩ := ih (head + 1) bs' hrec
        refine ⟨by simp [hlen], fun i hi => ?_⟩
        match i with
        | 0 => rw [Nat.add_zero, hc]; simp
        | i + 1 =>
          rw [show head + (i + 1) = head + 1 + i by omega]
          have hg := hget i (Nat.lt_of_succ_lt_succ hi)
          simpa using hg

/-- Helper: with a representable extent (no `u32` saturation or truncation),
`with_blocks (some f) (some l)` is the plain loop over `[f, f + l)`. -/
theorem with_blocks_eq_go (c : BlockCache) (f l : Nat) (hfl : f + l ≤ U32_MAX) :
    c.with_blocks (some f) (some l) = c.with_blocks_go f l := by
  have hl : l % U32_MOD = l := by
    apply Nat.mod_eq_of_lt
    simp only [U32_MAX, U32_MOD] at *
    omega
  simp only [BlockCache.with_blocks, Option.getD_some]
  rw [hl, min_eq_left hfl, Nat.add_sub_cancel_left]

/-- C8 counterexample: with the extent read as `[from, from + limit)` the claim
fails at `from = 0`, `limit = 2^32` on an empty cache: the Rust code casts the
limit `as u32` (yielding 0) and saturates `from + limit` at `u32::MAX`, so the
lookup inspects nothing and succeeds even though every height of the claimed
extent is absent. -/
theorem c8_saturating_extent_counterexample :
    ¬((∃ bs, BlockCache.emptyCache.with_blocks (some 0) (some U32_MOD) = .ok bs) ↔
      ∀ h, h < U32_MOD → (BlockCache.emptyCache h).isSome = true) := by
  intro hiff
  have h0 := hiff.mp ⟨[], rfl⟩ 0 (by norm_num [U32_MOD])
  simp [BlockCache.emptyCache] at h0

/-- C8 (amended): for every cache state and every `from`/`limit` pair whose
extent `[from, from + limit)` is representable without `u32` saturation or
truncation, the ordered lookup succeeds exactly when every height of the extent
is present; on failure it reports `BlockNotFound` at the first absent height
(every earlier height being present, visited in ascending order); and on
success it yields exactly the cached blocks of the extent in ascending height
order. -/
theorem c8_ordered_lookup (c : BlockCache) (f l : Nat) (hfl : f + l ≤ U32_MAX) :
    (∀ bs, c.with_blocks (some f) (some l) = .ok bs →
      bs.length = l ∧ ∀ i, i < l → bs[i]? = c (f + i)) ∧
    (∀ h, c.with_blocks (some f) (some l) = .error h →
      c h = none ∧ f ≤ h ∧ h < f + l ∧ ∀ k, f ≤ k → k < h → (c k).isSome = true) ∧
    ((∃ bs, c.with_blocks (some f) (some l) = .ok bs) ↔
      ∀ h, f ≤ h → h < f + l → (c h).isSome = true) := by
  rw [with_blocks_eq_go c f l hfl]
  refine ⟨fun bs hbs => with_blocks_go_get c l f bs hbs,
    fun h hh => with_blocks_go_error c l f h hh, ?_⟩
  rw [with_blocks_go_ok_iff c l f]
  constructor
  · intro hi h hf hl2
    have := hi (h - f) (by omega)
    rw [show f + (h - f) = h by omega] at this
    exact this
  · intro hh i hi
    exact hh (f + i) (by omega) (by omega)

/-- Witness for C8 (amended) on a one-block cache. -/
theorem c8_ordered_lookup_witness :
    (5 + 1 ≤ U32_MAX) ∧
    ((∀ bs, c8_cache.with_blocks (some 5) (some 1) = .ok bs →
       bs.length = 1 ∧ ∀ i, i < 1 → bs[i]? = c8_cache (5 + i)) ∧
     (∀ h, c8_cache.with_blocks (some 5) (some 1) = .error h →
       c8_cache h = none ∧ 5 ≤ h ∧ h < 5 + 1 ∧
       ∀ k, 5 ≤ k → k < h → (c8_cache k).isSome = true) ∧
     ((∃ bs, c8_cache.with_blocks (some 5) (some 1) = .ok bs) ↔
       ∀ h, 5 ≤ h → h < 5 + 1 → (c8_cache h).isSome = true)) :=
  ⟨by norm_num [U32_MAX], c8_ordered_lookup c8_cache 5 1 (by norm_num [U32_MAX])⟩

/-- Helper: zero-action blocks never reach the chunk threshold, so the whole
remaining stream joins the current chunk. -/
theorem download_chunks_go_zero_actions :
    ∀ (bs chunk : List CompactBlock) (accumulated : Nat),
      (∀ b ∈ bs, blockActionCount b = 0) → accumulated ≤ BLOCKS_CHUNK_THRESHOLD →
      download_chunks_go bs chunk accumulated =
        if chunk ++ bs = [] then [] else [chunk ++ bs] := by
  intro bs
  induction bs with
  | nil =>
    intro chunk accumulated _ _
    cases chunk <;> simp [download_chunks_go]
  | cons b rest ih =>
    intro chunk accumulated hz hacc
    have hb : blockActionCount b = 0 := hz b (List.mem_cons_self b rest)
    simp only [download_chunks_go, hb, Nat.add_zero]
    rw [if_neg (Nat.not_lt.mpr hacc)]
    rw [ih (chunk ++ [b]) accumulated (fun x hx => hz x (List.mem_cons_of_mem b hx)) hacc]
    simp

/-- C3 counterexample: 10,001 consecutive empty blocks never accumulate any
shielded actions, so the downloader emits them as a single chunk spanning
10,001 heights; chunks are bounded by accumulated action count against
`BLOCKS_CHUNK_THRESHOLD`, not by a 10,000-height cap. -/
theorem c3_height_cap_counterexample :
    ¬((download_chunks c3_blocks).join = c3_blocks ∧
      ∀ chunk ∈ download_chunks c3_blocks, chunk.length ≤ 10000) := by
  rintro ⟨-, hcap⟩
  have hz : ∀ b ∈ c3_blocks, blockActionCount b = 0 := by
    intro b hb
    simp only [c3_blocks, List.mem_map] at hb
    obtain ⟨a, -, rfl⟩ := hb
    rfl
  have h1 : download_chunks c3_blocks = [c3_blocks] := by
    rw [download_chunks,
      download_chunks_go_zero_actions c3_blocks [] 0 hz (Nat.zero_le _),
      List.nil_append, if_neg (by simp [c3_blocks])]
  have h2 := hcap c3_blocks (by rw [h1]; exact List.mem_singleton.mpr rfl)
  have h3 : c3_blocks.length = 10001 := by simp [c3_blocks]
  omega

/-- Helper: the chunks of `download_chunks_go`, concatenated, are exactly the
pending chunk followed by the remaining stream. -/
theorem download_chunks_go_join :
    ∀ (bs chunk : List CompactBlock) (accumulated : Nat),
      (download_chunks_go bs chunk accumulated).join = chunk ++ bs := by
  intro bs
  induction bs with
  | nil =>
    intro chunk accumulated
    cases chunk <;> simp [download_chunks_go]
  | cons b rest ih =>
    intro chunk accumulated
    simp only [download_chunks_go]
    by_cases h : BLOCKS_CHUNK_THRESHOLD < accumulated + blockActionCount b
    · rw [if_pos h]
      simp [ih]
    · rw [if_neg h, ih]
      simp

/-- Helper: every chunk the downloader emits is non-empty. -/
theorem download_chunks_go_nonempty :
    ∀ (bs chunk : List CompactBlock) (accumulated : Nat) (c : List CompactBlock),
      c ∈ download_chunks_go bs chunk accumulated → c ≠ [] := by
  intro bs
  induction bs with
  | nil =>
    intro chunk accumulated c hc
    cases chunk with
    | nil => simp [download_chunks_go] at hc
    | cons x xs =>
      simp [download_chunks_go] at hc
      subst hc
      simp
  | cons b rest ih =>
    intro chunk accumulated c hc
    simp only [download_chunks_go] at hc
    by_cases h : BLOCKS_CHUNK_THRESHOLD < accumulated + blockActionCount b
    · rw [if_pos h] at hc
      rcases List.mem_cons.mp hc with rfl | hcr
      · simp
      · exact ih [] 0 c hcr
    · rw [if_neg h] at hc
      exact ih (chunk ++ [b]) _ c hc

/-- Helper: every chunk except possibly the last is emitted only once its
accumulated action count exceeds the threshold. -/
theorem download_chunks_go_dropLast_exceeds :
    ∀ (bs chunk : List CompactBlock) (accumulated : Nat),
      accumulated = (chunk.map blockActionCount).sum →
      ∀ c ∈ (download_chunks_go bs chunk accumulated).dropLast,
        BLOCKS_CHUNK_THRESHOLD < (c.map blockActionCount).sum := by
  intro bs
  induction bs with
  | nil =>
    intro chunk accumulated _ c hc
    by_cases h : chunk.isEmpty <;> simp [download_chunks_go, h] at hc
  | cons b rest ih =>
    intro chunk accumulated hacc c hc
    simp only [download_chunks_go] at hc
    by_cases h : BLOCKS_CHUNK_THRESHOLD < accumulated + blockActionCount b
    · rw [if_pos h] at hc
      rcases hr : download_chunks_go rest [] 0 with _ | ⟨d, ds⟩
      · rw [hr] at hc
        simp at hc
      · rw [hr, List.dropLast_cons₂] at hc
        rcases List.mem_cons.mp hc with rfl | hcr
        · rw [List.map_append, List.sum_append]
          simp only [List.map_cons, List.map_nil, List.sum_cons, List.sum_nil]
          omega
        · exact ih [] 0 rfl c (hr ▸ hcr)
    · rw [if_neg h] at hc
      refine ih (chunk ++ [b]) (accumulated + blockActionCount b) ?_ c hc
      rw [hacc, List.map_append, List.sum_append]
      simp

/-- C3 (amended): for a scan range `[start, start+len)` whose streamed blocks
carry exactly those heights in order, the downloader's chunks concatenated in
order reconstruct exactly the streamed blocks (hence the heights
`[start, start+len)` with no gaps and no overlaps); every chunk is non-empty;
and every chunk except possibly the last is cut because its accumulated
shielded-output/action count exceeds `BLOCKS_CHUNK_THRESHOLD` (50,000) — the
chunk bound is an action-count bound, and no 10,000-height cap exists. -/
theorem c3_chunking_reconstructs (blocks : List CompactBlock) (start len : Nat)
    (hh : blocks.map CompactBlock.height = List.range' start len) :
    (download_chunks blocks).join = blocks ∧
    ((download_chunks blocks).join.map CompactBlock.height = List.range' start len) ∧
    (∀ chunk ∈ download_chunks blocks, chunk ≠ []) ∧
    (∀ chunk ∈ (download_chunks blocks).dropLast,
      BLOCKS_CHUNK_THRESHOLD < (chunk.map blockActionCount).sum) := by
  have hj : (download_chunks blocks).join = blocks := by
    rw [download_chunks]
    exact (download_chunks_go_join blocks [] 0).trans (List.nil_append blocks)
  refine ⟨hj, by rw [hj]; exact hh, fun c hc => ?_, fun c hc => ?_⟩
  · rw [download_chunks] at hc
    exact download_chunks_go_nonempty blocks [] 0 c hc
  · rw [download_chunks] at hc
    exact download_chunks_go_dropLast_exceeds blocks [] 0 rfl c hc

/-- Witness for C3 (amended) on a two-block stream at heights 7 and 8. -/
theorem c3_chunking_reconstructs_witness :
    ([(⟨7, []⟩ : CompactBlock), ⟨8, [⟨0, 0, 1⟩]⟩].map CompactBlock.height =
      List.range' 7 2) ∧
    ((download_chunks [⟨7, []⟩, ⟨8, [⟨0, 0, 1⟩]⟩]).join =
        [(⟨7, []⟩ : CompactBlock), ⟨8, [⟨0, 0, 1⟩]⟩] ∧
     ((download_chunks [⟨7, []⟩, ⟨8, [⟨0, 0, 1⟩]⟩]).join.map CompactBlock.height =
        List.range' 7 2) ∧
     (∀ chunk ∈ download_chunks [(⟨7, []⟩ : CompactBlock), ⟨8, [⟨0, 0, 1⟩]⟩],
        chunk ≠ []) ∧
     (∀ chunk ∈ (download_chunks [(⟨7, []⟩ : CompactBlock), ⟨8, [⟨0, 0, 1⟩]⟩]).dropLast,
        BLOCKS_CHUNK_THRESHOLD < (chunk.map blockActionCount).sum)) :=
  ⟨by decide, c3_chunking_reconstructs [⟨7, []⟩, ⟨8, [⟨0, 0, 1⟩]⟩] 7 2 (by decide)⟩

/-- Helper for C6: once every index from `index` on is free, the walk needs only
`GAP_LIMIT + 1 - cu` more fuel to stop. -/
theorem fill_gap_go_isSome_tail :
    ∀ (fuel : Nat) (s : TaddrState) (index cu : Nat),
      (∀ j, index ≤ j → s j = none) → cu ≤ TADDR_INDEX_GAP_LIMIT →
      TADDR_INDEX_GAP_LIMIT + 1 - cu ≤ fuel →
      (fill_gap_go fuel s index cu).isSome = true := by
  intro fuel
  induction fuel with
  | zero =>
    intro s index cu _ hcu hfuel
    simp only [TADDR_INDEX_GAP_LIMIT] at hcu hfuel
    omega
  | succ fuel ih =>
    intro s index cu hnone hcu hfuel
    simp only [fill_gap_go]
    by_cases hstop : TADDR_INDEX_GAP_LIMIT ≤ cu
    · rw [if_pos hstop]
      rfl
    · rw [if_neg hstop, hnone index le_rfl]
      refine ih (s.addUnused index) (index + 1) (cu + 1) ?_ (by omega) (by omega)
      intro j hj
      simp only [TaddrState.addUnused]
      rw [if_neg (by omega)]
      exact hnone j (by omega)

/-- Helper for C6: with every index at `B` or above free, fuel
`(B - index) + GAP_LIMIT + 1` suffices for the walk to stop. -/
theorem fill_gap_go_isSome :
    ∀ (fuel : Nat) (s : TaddrState) (index cu B : Nat),
      (∀ j, B ≤ j → s j = none) → cu ≤ TADDR_INDEX_GAP_LIMIT → index ≤ B →
      (B - index) + TADDR_INDEX_GAP_LIMIT + 1 ≤ fuel →
      (fill_gap_go fuel s index cu).isSome = true := by
  intro fuel
  induction fuel with
  | zero =>
    intro s index cu B _ _ _ hfuel
    omega
  | succ fuel ih =>
    intro s index cu B hB hcu hiB hfuel
    simp only [fill_gap_go]
    by_cases hstop : TADDR_INDEX_GAP_LIMIT ≤ cu
    · rw [if_pos hstop]
      rfl
    · rw [if_neg hstop]
      rcases Nat.lt_or_ge index B with hlt | hge
      · rcases hs : s index with _ | b
        · refine ih (s.addUnused index) (index + 1) (cu + 1) B ?_ (by omega) (by omega)
            (by omega)
          intro j hj
          simp only [TaddrState.addUnused]
          rw [if_neg (by omega)]
          exact hB j hj
        · cases b
          · exact ih s (index + 1) (cu + 1) B hB (by omega) (by omega) (by omega)
          · exact ih s (index + 1) 0 B hB (by omega) (by omega) (by omega)
      · have hiB' : index = B := by omega
        rw [hB index hge]
        refine fill_gap_go_isSome_tail fuel (s.addUnused index) (index + 1) (cu + 1) ?_
          (by omega) (by omega)
        intro j hj
        simp only [TaddrState.addUnused]
        rw [if_neg (by omega)]
        exact hB j (by omega)

/-- Helper for C6: characterization of the walk's result: it stops at or after
its entry index, adds an unused address at every previously-free visited index,
keeps visited occupied indices as they were, and leaves indices outside the
visited prefix untouched. -/
theorem fill_gap_go_spec :
    ∀ (fuel : Nat) (s : TaddrState) (index cu : Nat) (s' : TaddrState) (stop : Nat),
      fill_gap_go fuel s index cu = some (s', stop) →
      index ≤ stop ∧
      (∀ j, j < index ∨ stop ≤ j → s' j = s j) ∧
      (∀ j, index ≤ j → j < stop → s' j = some ((s j).getD false)) := by
  intro fuel
  induction fuel with
  | zero =>
    intro s index cu s' stop h
    simp [fill_gap_go] at h
  | succ fuel ih =>
    intro s index cu s' stop h
    simp only [fill_gap_go] at h
    by_cases hstop : TADDR_INDEX_GAP_LIMIT ≤ cu
    · rw [if_pos hstop] at h
      simp only [Option.some.injEq, Prod.mk.injEq] at h
      obtain ⟨rfl, rfl⟩ := h
      exact ⟨le_rfl, fun j _ => rfl, fun j hj hj' => absurd hj' (by omega)⟩
    · rw [if_neg hstop] at h
      rcases hs : s index with _ | b
      · rw [hs] at h
        obtain ⟨h1, h2, h3⟩ := ih (s.addUnused index) (index + 1) (cu + 1) s' stop h
        refine ⟨by omega, fun j hj => ?_, fun j hj hj' => ?_⟩
        · rcases hj with hj | hj
          · rw [h2 j (Or.inl (by omega))]
            simp only [TaddrState.addUnused]
            rw [if_neg (by omega)]
          · rw [h2 j (Or.inr hj)]
            simp only [TaddrState.addUnused]
            rw [if_neg (by omega)]
        · rcases Nat.eq_or_lt_of_le hj with rfl | hjgt
          · rw [h2 index (Or.inl (by omega)), hs]
            simp [TaddrState.addUnused]
          · rw [h3 j (by omega) hj']
            simp only [TaddrState.addUnused]
            rw [if_neg (by omega)]
      · rw [hs] at h
        have hrec : fill_gap_go fuel s (index + 1) (if b then 0 else cu + 1) =
            some (s', stop) := by
          cases b
          · simpa using h
          · simpa using h
        obtain ⟨h1, h2, h3⟩ := ih s (index + 1) _ s' stop hrec
        refine ⟨by omega, fun j hj => ?_, fun j hj hj' => ?_⟩
        · rcases hj with hj | hj
          · exact h2 j (Or.inl (by omega))
          · exact h2 j (Or.inr hj)
        · rcases Nat.eq_or_lt_of_le hj with rfl | hjgt
          · rw [h2 index (Or.inl (by omega)), hs]
            simp
          · exact h3 j (by omega) hj'

/-- Helper for C6: when the walk stops at `stop`, the gap-limit window
`[stop - GAP_LIMIT, stop)` holds no used address (and `stop` is at least
`GAP_LIMIT`), given the invariant that the `cu` indices just below the entry
point are unused. -/
theorem fill_gap_go_window :
    ∀ (fuel : Nat) (s : TaddrState) (index cu : Nat) (s' : TaddrState) (stop : Nat),
      fill_gap_go fuel s index cu = some (s', stop) →
      cu ≤ TADDR_INDEX_GAP_LIMIT → cu ≤ index →
      (∀ j, index - cu ≤ j → j < index → s j ≠ some true) →
      TADDR_INDEX_GAP_LIMIT ≤ stop ∧
      ∀ j, stop - TADDR_INDEX_GAP_LIMIT ≤ j → j < stop → s j ≠ some true := by
  intro fuel
  induction fuel with
  | zero =>
    intro s index cu s' stop h
    simp [fill_gap_go] at h
  | succ fuel ih =>
    intro s index cu s' stop h hcu hci hwin
    simp only [fill_gap_go] at h
    by_cases hstop : TADDR_INDEX_GAP_LIMIT ≤ cu
    · rw [if_pos hstop] at h
      simp only [Option.some.injEq, Prod.mk.injEq] at h
      obtain ⟨rfl, rfl⟩ := h
      have hceq : cu = TADDR_INDEX_GAP_LIMIT := by omega
      subst hceq
      exact ⟨by omega, hwin⟩
    · rw [if_neg hstop] at h
      rcases hs : s index with _ | b
      · rw [hs] at h
        have hrec := ih (s.addUnused index) (index + 1) (cu + 1) s' stop h
          (by omega) (by omega) ?_
        · refine ⟨hrec.1, fun j hj1 hj2 => ?_⟩
          have := hrec.2 j hj1 hj2
          by_cases hji : j = index
          · rw [hji, hs]
            simp
          · simp only [TaddrState.addUnused] at this
            rw [if_neg hji] at this
            exact this
        · intro j hj1 hj2
          simp only [TaddrState.addUnused]
          by_cases hji : j = index
          · rw [if_pos hji]
            simp
          · rw [if_neg hji]
            exact hwin j (by omega) (by omega)
      · rw [hs] at h
        cases b
        · have hrec := ih s (index + 1) (cu + 1) s' stop (by simpa using h)
            (by omega) (by omega) ?_
          · exact hrec
          · intro j hj1 hj2
            by_cases hji : j = index
            · rw [hji, hs]
              simp
            · exact hwin j (by omega) (by omega)
        · have hrec := ih s (index + 1) 0 s' stop (by simpa using h)
            (by omega) (by omega) ?_
          · exact hrec
          · intro j hj1 hj2
            omega

/-- Helper for C6: where the walk stops depends only on which indices hold used
addresses, not on which unused addresses already exist (a free index and an
unused address behave alike, and filling in a free index records it unused). -/
theorem fill_gap_go_stop_congr :
    ∀ (fuel : Nat) (s t : TaddrState) (index cu : Nat),
      (∀ j, s j = some true ↔ t j = some true) →
      (fill_gap_go fuel s index cu).map Prod.snd =
        (fill_gap_go fuel t index cu).map Prod.snd := by
  intro fuel
  induction fuel with
  | zero => intro s t index cu _; rfl
  | succ fuel ih =>
    intro s t index cu hiff
    simp only [fill_gap_go]
    by_cases hstop : TADDR_INDEX_GAP_LIMIT ≤ cu
    · rw [if_pos hstop, if_pos hstop]
      rfl
    · rw [if_neg hstop, if_neg hstop]
      have haddS : ∀ (u : TaddrState) (i j : Nat), u i ≠ some true →
          ((u.addUnused i) j = some true ↔ u j = some true) := by
        intro u i j hu
        simp only [TaddrState.addUnused]
        by_cases hji : j = i
        · rw [if_pos hji, hji]
          simp only [iff_iff_implies_and_implies]
          exact ⟨fun hx => absurd hx (by simp), fun hx => absurd hx hu⟩
        · rw [if_neg hji]
      by_cases hst : s index = some true
      · have htt : t index = some true := (hiff index).mp hst
        rw [hst, htt]
        exact ih s t (index + 1) 0 hiff
      · have htt : ¬t index = some true := fun hx => hst ((hiff index).mpr hx)
        have hiff' : ∀ (s₁ t₁ : TaddrState),
            (∀ j, s₁ j = some true ↔ s j = some true) →
            (∀ j, t₁ j = some true ↔ t j = some true) →
            (fill_gap_go fuel s₁ (index + 1) (cu + 1)).map Prod.snd =
              (fill_gap_go fuel t₁ (index + 1) (cu + 1)).map Prod.snd := by
          intro s₁ t₁ hs₁ ht₁
          exact ih s₁ t₁ (index + 1) (cu + 1)
            (fun j => ((hs₁ j).trans (hiff j)).trans (ht₁ j).symm)
        rcases hs : s index with _ | b
        · rcases ht : t index with _ | b'
          · exact hiff' (s.addUnused index) (t.addUnused index)
              (fun j => haddS s index j (by rw [hs]; simp))
              (fun j => haddS t index j (by rw [ht]; simp))
          · cases b'
            · exact hiff' (s.addUnused index) t
                (fun j => haddS s index j (by rw [hs]; simp)) (fun j => Iff.rfl)
            · rw [ht] at htt
              exact absurd rfl htt
        · cases b
          · rcases ht : t index with _ | b'
            · exact hiff' s (t.addUnused index) (fun j => Iff.rfl)
                (fun j => haddS t index j (by rw [ht]; simp))
            · cases b'
              · exact hiff' s t (fun j => Iff.rfl) (fun j => Iff.rfl)
              · rw [ht] at htt
                exact absurd rfl htt
          · rw [hs] at hst
            exact absurd rfl hst

/-- C6 counterexample: start from an account whose address at index 0 is used
and which already holds an unused address at index 21, nothing else. The walk
stops at index 21 after filling in unused addresses at indices 1..20, and a
second call changes nothing, so the converged state has 21 consecutive unused
addresses (indices 1..21) above the highest used index 0 — not exactly
`GAP_LIMIT` (20). The claimed "exactly" requires index
`0 + GAP_LIMIT + 1 = 21` to hold no unused address, which fails. -/
theorem c6_exactly_gap_counterexample :
    ¬(∀ r, fill_in_taddrs 50 c6_state = some r →
        r.1 (0 + TADDR_INDEX_GAP_LIMIT + 1) ≠ some false) := by
  intro hclaim
  rcases hr : fill_in_taddrs 50 c6_state with _ | r
  · have hsome : (fill_in_taddrs 50 c6_state).isSome = true := by decide
    rw [hr] at hsome
    simp at hsome
  · have h21 : r.1 21 = some false := by
      have hmap : (fill_in_taddrs 50 c6_state).map (fun p => p.1 21) =
          some (some false) := by decide
      rw [hr] at hmap
      simpa using hmap
    have h21' : (0 : Nat) + TADDR_INDEX_GAP_LIMIT + 1 = 21 := by
      simp [TADDR_INDEX_GAP_LIMIT]
    exact hclaim r hr (h21' ▸ h21)

/-- C6 (amended): consider one account's address map `s` with addresses only
below some bound `B`, a highest used index `U`, and the gap-limit
reachability property (below any used index there is no window of `GAP_LIMIT`
consecutive indices all free of used addresses — the discovery loop itself
never creates such a window for the addresses it marks used). Then one call of
`fill_in_taddrs_to_gap_limit` (given fuel covering the walk, which always
terminates) yields a state `s'` on which a second call stops at the same index
and changes nothing (the fixed point is reached); in `s'` at least `GAP_LIMIT`
consecutive unused addresses exist immediately above `U` (indices
`U+1 .. U+GAP_LIMIT` are all present and unused); and every previously
existing address — in particular every used one — is still present with its
used flag intact. "Exactly GAP_LIMIT" does not hold in general (see the
counterexample); "at least" does. -/
theorem c6_gap_limit_above_highest_used (s : TaddrState) (B U fuel : Nat)
    (hB : ∀ j, B ≤ j → s j = none)
    (hfuel : B + TADDR_INDEX_GAP_LIMIT + 1 ≤ fuel)
    (hU : s U = some true)
    (hUmax : ∀ j, U < j → s j ≠ some true)
    (hreach : ∀ u, s u = some true → ∀ k, k + TADDR_INDEX_GAP_LIMIT ≤ u →
      ∃ j, k ≤ j ∧ j < k + TADDR_INDEX_GAP_LIMIT ∧ s j = some true) :
    ∃ s' stop, fill_in_taddrs fuel s = some (s', stop) ∧
      fill_in_taddrs fuel s' = some (s', stop) ∧
      U + TADDR_INDEX_GAP_LIMIT < stop ∧
      (∀ j, U < j → j ≤ U + TADDR_INDEX_GAP_LIMIT → s' j = some false) ∧
      (∀ j b, s j = some b → s' j = some b) := by
  have hsome : (fill_gap_go fuel s 0 0).isSome = true :=
    fill_gap_go_isSome fuel s 0 0 B hB (Nat.zero_le _) (Nat.zero_le _) (by omega)
  obtain ⟨⟨s', stop⟩, hrun⟩ := Option.isSome_iff_exists.mp hsome
  have hspec := fill_gap_go_spec fuel s 0 0 s' stop hrun
  have hwin := fill_gap_go_window fuel s 0 0 s' stop hrun (Nat.zero_le _) le_rfl
    (fun j hj1 hj2 => absurd hj2 (by omega))
  have hUstop : U < stop := by
    by_contra hle
    push_neg at hle
    obtain ⟨j, hj1, hj2, hj3⟩ := hreach U hU (stop - TADDR_INDEX_GAP_LIMIT)
      (by omega)
    exact hwin.2 j hj1 (by omega) hj3
  have hUgap : U + TADDR_INDEX_GAP_LIMIT < stop := by
    by_contra hle
    push_neg at hle
    exact hwin.2 U (by omega) hUstop hU
  have hpres : ∀ j b, s j = some b → s' j = some b := by
    intro j b hj
    by_cases hjs : j < stop
    · rw [hspec.2.2 j (Nat.zero_le j) hjs, hj]
      simp
    · rw [hspec.2.1 j (Or.inr (Nat.not_lt.mp hjs))]
      exact hj
  have hgap : ∀ j, U < j → j ≤ U + TADDR_INDEX_GAP_LIMIT → s' j = some false := by
    intro j hj1 hj2
    have hjs : j < stop := by omega
    rw [hspec.2.2 j (Nat.zero_le j) hjs]
    rcases hsj : s j with _ | b
    · rfl
    · cases b
      · rfl
      · exact absurd hsj (hUmax j hj1)
  have hused : ∀ j, s' j = some true ↔ s j = some true := by
    intro j
    constructor
    · intro h
      by_cases hjs : j < stop
      · rw [hspec.2.2 j (Nat.zero_le j) hjs] at h
        injection h with h'
        rcases hsj : s j with _ | b
        · rw [hsj] at h'
          simp at h'
        · rw [hsj] at h'
          simp at h'
          rw [h']
      · rw [hspec.2.1 j (Or.inr (Nat.not_lt.mp hjs))] at h
        exact h
    · intro h
      exact hpres j true h
  have hcongr := fill_gap_go_stop_congr fuel s' s 0 0 hused
  rcases hr2 : fill_gap_go fuel s' 0 0 with _ | ⟨s'', stop2⟩
  · rw [hr2, hrun] at hcongr
    simp only [Option.map_none', Option.map_some'] at hcongr
    exact Option.noConfusion hcongr
  · rw [hr2, hrun] at hcongr
    simp only [Option.map_some', Option.some.injEq] at hcongr
    have hstop2 : stop2 = stop := hcongr
    subst stop2
    have hspec2 := fill_gap_go_spec fuel s' 0 0 s'' stop hr2
    have hs''eq : s'' = s' := by
      funext j
      by_cases hjs : j < stop
      · rw [hspec2.2.2 j (Nat.zero_le j) hjs, hspec.2.2 j (Nat.zero_le j) hjs]
        simp
      · exact hspec2.2.1 j (Or.inr (Nat.not_lt.mp hjs))
    subst s''
    exact ⟨s', stop, hrun, hr2, hUgap, hgap, hpres⟩

/-- Witness for C6 (amended): an account with a single used address at index 0
and nothing else; after one call, indices 1..20 hold unused addresses and the
walk is at a fixed point. -/
theorem c6_gap_limit_above_highest_used_witness :
    ((∀ j, 1 ≤ j → c6w_state j = none) ∧
     (1 + TADDR_INDEX_GAP_LIMIT + 1 ≤ 50) ∧
     (c6w_state 0 = some true) ∧
     (∀ j, 0 < j → c6w_state j ≠ some true) ∧
     (∀ u, c6w_state u = some true → ∀ k, k + TADDR_INDEX_GAP_LIMIT ≤ u →
       ∃ j, k ≤ j ∧ j < k + TADDR_INDEX_GAP_LIMIT ∧ c6w_state j = some true)) ∧
    (∃ s' stop, fill_in_taddrs 50 c6w_state = some (s', stop) ∧
      fill_in_taddrs 50 s' = some (s', stop) ∧
      0 + TADDR_INDEX_GAP_LIMIT < stop ∧
      (∀ j, 0 < j → j ≤ 0 + TADDR_INDEX_GAP_LIMIT → s' j = some false) ∧
      (∀ j b, c6w_state j = some b → s' j = some b)) := by
  have h1 : ∀ j, 1 ≤ j → c6w_state j = none := by
    intro j hj
    simp only [c6w_state]
    rw [if_neg (by omega)]
  have h2 : (1 : Nat) + TADDR_INDEX_GAP_LIMIT + 1 ≤ 50 := by
    simp [TADDR_INDEX_GAP_LIMIT]
  have h3 : c6w_state 0 = some true := rfl
  have h4 : ∀ j, 0 < j → c6w_state j ≠ some true := by
    intro j hj
    rw [h1 j hj]
    simp
  have h5 : ∀ u, c6w_state u = some true → ∀ k, k + TADDR_INDEX_GAP_LIMIT ≤ u →
      ∃ j, k ≤ j ∧ j < k + TADDR_INDEX_GAP_LIMIT ∧ c6w_state j = some true := by
    intro u hu k hk
    by_cases hu0 : u = 0
    · subst hu0
      have : (0 : Nat) < TADDR_INDEX_GAP_LIMIT := by simp [TADDR_INDEX_GAP_LIMIT]
      omega
    · exact absurd hu (h4 u (by omega))
  exact ⟨⟨h1, h2, h3, h4, h5⟩,
    c6_gap_limit_above_highest_used c6w_state 1 0 50 h1 h2 h3 h4 h5⟩
